import Mathlib

/-!
Verification of the ICERM SciML gravitational-wave workshop notebooks.

The repository consists of two Jupyter notebooks:
* a surrogate-building notebook (peak alignment, common time grid,
  reduced-basis and empirical-interpolation calls, staged hyperparameter
  optimisation via Optuna), and
* a classifier notebook (multi-class MLP distinguishing signals from
  glitches).

We embed the hand-written Python helpers shallowly: numpy arrays of real
samples become lists of rationals, a 2-D training matrix becomes the list
of its columns (one column per waveform, matching the transpose in
`common_time_grid`), Python dictionaries become association lists, and the
notebook's global variables become an explicit record threaded through the
functions that read them.
-/

namespace ICERMWorkshop

/-- Embedding of `np.argmax`-style maximum of a non-empty list: Python and
numpy reduce with a running maximum starting from the first element.  For
the empty list (where numpy raises) we return 0. -/
def maxList : List ℚ → ℚ
  | [] => 0
  | x :: xs => xs.foldl max x

/-- Embedding of `np.argmax l`: the index of the first element attaining
the maximum of the list (numpy returns the first maximal index on ties). -/
def npArgmax (l : List ℚ) : Nat :=
  l.findIdx (fun x => decide (maxList l ≤ x))

/-- Notebook globals read by `get_peaks` and `align_peaks` (the Python
functions close over the module-level variables `times` and
`num_train_samples` rather than taking them as arguments). -/
structure Globals where
  times : List ℚ
  num_train_samples : Nat

/-- Embedding of `get_peak(t, h)`: `arg = np.argmax(np.abs(h))`, then
return `[arg, t[arg], h[arg]]`. -/
def get_peak (t : List ℚ) (h : List ℚ) : Nat × ℚ × ℚ :=
  let arg := npArgmax (h.map (fun x => |x|))
  (arg, t.getD arg 0, h.getD arg 0)

/-- Embedding of `get_peaks(t, training_set)`: for `i` in
`range(num_train_samples)` collect `get_peak(times, training_set[:,i])[0]`.
Note that the body uses the global `times`, not the parameter `t`, and the
global `num_train_samples`, not the column count of `training_set`. -/
def get_peaks (g : Globals) (t : List ℚ) (trainingSet : List (List ℚ)) :
    List Nat :=
  (List.range g.num_train_samples).map
    (fun i => (get_peak g.times (trainingSet.getD i [])).1)

/-- Embedding of Python's built-in `min` on a list of naturals (0 on the
empty list, where Python raises). -/
def pyMin : List Nat → Nat
  | [] => 0
  | x :: xs => xs.foldl min x

/-- The first loop of `common_time_grid`: running maximum of the waveform
lengths, starting from 0, written with the same conditional update as the
Python code. -/
def longestWaveform (trainingData : List (List ℚ)) : Nat :=
  trainingData.foldl
    (fun longest h => if h.length > longest then h.length else longest) 0

/-- Embedding of `common_time_grid(training_data, dt)`: pad every waveform
with zeros up to the longest length, build `times = np.arange(L)*dt`, and
return the pair.  The stacked-and-transposed numpy matrix is represented
as the list of its columns. -/
def common_time_grid (trainingData : List (List ℚ)) (dt : ℚ) :
    List ℚ × List (List ℚ) :=
  let longest := longestWaveform trainingData
  let padded := trainingData.map
    (fun h => h ++ List.replicate (longest - h.length) 0)
  ((List.range longest).map (fun i : Nat => (i : ℚ) * dt), padded)

/-- Embedding of `align_peaks(times, training_set)`: find the peak indices
via `get_peaks`, take the minimum, drop `offset = peak_i - min_arg` leading
samples from column `i`, and re-pad through `common_time_grid` (called with
its default `dt = 0.1`). Only the padded matrix is returned. -/
def align_peaks (g : Globals) (times : List ℚ)
    (trainingSet : List (List ℚ)) : List (List ℚ) :=
  let timePeakArg := get_peaks g times trainingSet
  let minArg := pyMin timePeakArg
  let aligned := (List.range g.num_train_samples).map
    (fun i => (trainingSet.getD i []).drop (timePeakArg.getD i 0 - minArg))
  (common_time_grid aligned (1/10)).2

/-- The property claim C3 asserts of `common_time_grid`: writing
`(times, A)` for the result, there is an `L` that is the maximum input
length such that `A` has one column per input waveform, column `i` is
waveform `i` followed by `L - len(waveform_i)` zeros (every waveform is
preserved unchanged as a prefix of its column, which has `L` rows), and
`times` is `[0, dt, 2*dt, ..., (L-1)*dt]`. -/
def CommonTimeGridClaim (ts : List (List ℚ)) (dt : ℚ) : Prop :=
  ∃ L : Nat,
    (∀ h ∈ ts, h.length ≤ L) ∧
    (∃ h ∈ ts, h.length = L) ∧
    (common_time_grid ts dt).2.length = ts.length ∧
    (∀ i, i < ts.length →
      (common_time_grid ts dt).2.getD i []
        = ts.getD i [] ++ List.replicate (L - (ts.getD i []).length) 0) ∧
    (∀ i, i < ts.length → ((common_time_grid ts dt).2.getD i []).length = L) ∧
    (common_time_grid ts dt).1.length = L ∧
    (∀ i, i < L → (common_time_grid ts dt).1.getD i 0 = (i : ℚ) * dt)

/-- The peak index computed by `get_peak`: the first index of the maximum
of the absolute values, `np.argmax(np.abs(h))`. -/
def peakIndex (h : List ℚ) : Nat := npArgmax (h.map (fun x => |x|))

/-- The property claim C2 asserts of `align_peaks` on a matrix of
common-length columns: writing `p_i` for the first index at which column
`i` attains the maximum of its absolute values and `m` for the minimum of
the `p_i`, the
result has one column per input column, column `i` equals input column `i`
with its first `p_i - m` entries removed and `p_i - m` zeros appended (so
all result columns again have the common length), and every result column
attains the maximum of its absolute values at row `m`. -/
def AlignPeaksClaim (g : Globals) (t : List ℚ) (ts : List (List ℚ))
    (L : Nat) : Prop :=
  ∃ m : Nat,
    (∀ i, i < ts.length → m ≤ peakIndex (ts.getD i [])) ∧
    (∃ i, i < ts.length ∧ peakIndex (ts.getD i []) = m) ∧
    (align_peaks g t ts).length = ts.length ∧
    (∀ i, i < ts.length →
      (align_peaks g t ts).getD i []
        = (ts.getD i []).drop (peakIndex (ts.getD i []) - m)
          ++ List.replicate (peakIndex (ts.getD i []) - m) 0) ∧
    (∀ i, i < ts.length → ((align_peaks g t ts).getD i []).length = L) ∧
    m < L ∧
    (∀ i, i < ts.length → ∀ x ∈ (align_peaks g t ts).getD i [],
      |x| ≤ |((align_peaks g t ts).getD i []).getD m 0|)

/-! Training-dataset optimisation stage: iteration sizes (claim C4). -/

/-- Test-set size chosen by `sklearn.model_selection.train_test_split`
for a fractional `test_size`: `ceil(n_samples * test_size)`.  The
notebook uses `test_size=0.4`, and `ceil(2*n/5) = (2*n + 4) / 5` in
integer arithmetic. -/
def train_test_split_test_count (n : Nat) : Nat := (2 * n + 4) / 5

/-- Training-set size of the same split: the remaining samples. -/
def train_test_split_train_count (n : Nat) : Nat :=
  n - train_test_split_test_count n

/-- Embedding of `append_sizes = [len(q_train) // num_iterations] *
num_iterations`: the list of training-set growth increments. -/
def append_sizes (qTrainLen numIterations : Nat) : List Nat :=
  List.replicate numIterations (qTrainLen / numIterations)

/-! Classifier notebook: one-hot encoding and model shape. -/

/-- Embedding of `keras.utils.to_categorical(y, num_classes)` on a single
integer class label: the one-hot row of length `num_classes` with a 1 in
position `y` and 0 elsewhere. -/
def to_categorical (numClasses : Nat) (y : Nat) : List ℚ :=
  (List.range numClasses).map (fun j => if j = y then 1 else 0)

/-- Embedding of `len(np.unique(ys))`: the number of distinct values. -/
def numDistinct {α : Type} [DecidableEq α] (ys : List α) : Nat :=
  ys.dedup.length

/-- Embedding of `X, y = data[:, :-1], data[:, -1]` on one row of the
loaded data matrix: the feature vector is every entry except the last. -/
def featureRow (row : List ℚ) : List ℚ := row.dropLast

/-- The target taken from one row of the data matrix: its last entry. -/
def targetOfRow (row : List ℚ) : ℚ := (row.getLast?).getD 0

/-- Keras activation functions appearing in the two notebooks. -/
inductive Activation where
  | tanh
  | softmax
  | relu
  | sigmoid
  | linear
deriving DecidableEq

/-- A Keras `Dense` layer: unit count and activation. -/
structure DenseLayer where
  units : Nat
  activation : Activation
deriving DecidableEq

/-- Embedding of the `Sequential` classifier model: `Dense(32, tanh)`,
`Dense(16, tanh)`, `Dense(output_classes, softmax)`, where the notebook
sets `output_classes = len(np.unique(y))`. -/
def classifierModel (outputClasses : Nat) : List DenseLayer :=
  [⟨32, .tanh⟩, ⟨16, .tanh⟩, ⟨outputClasses, .softmax⟩]

/-! Staged optimisation workflow (claim C1). -/

/-- Python dictionary values appearing in the hyperparameter
dictionaries: numbers and strings. -/
inductive PyVal where
  | num : ℚ → PyVal
  | str : String → PyVal
deriving DecidableEq

/-- A Python dictionary as an association list in insertion order. -/
abbrev PyDict := List (String × PyVal)

/-- Lookup of a key: the value of its first occurrence. -/
def dictLookup (d : PyDict) (k : String) : Option PyVal :=
  match d with
  | [] => none
  | p :: rest => if p.1 = k then some p.2 else dictLookup rest k

/-- Embedding of the Python item assignment `d[k] = v`: overwrite the
value if the key exists, otherwise append the new pair. -/
def dictSet (d : PyDict) (k : String) (v : PyVal) : PyDict :=
  if (dictLookup d k).isSome then
    d.map (fun p => if p.1 = k then (k, v) else p)
  else
    d ++ [(k, v)]

/-- Embedding of the Python dictionary union `d1 | d2`: keys of `d1` in
order with values overridden by `d2` where present, followed by the keys
occurring only in `d2`. -/
def dictUnion (d1 d2 : PyDict) : PyDict :=
  d1.map (fun p =>
    match dictLookup d2 p.1 with
    | some v => (p.1, v)
    | none => p)
  ++ d2.filter (fun p => (dictLookup d1 p.1).isNone)

/-- The three optimisation stages of the surrogate workflow. -/
inductive StageKind where
  | functional
  | shape
  | dataset
deriving DecidableEq

/-- The literal `fixed_dict` the notebook passes to the functional
optimisation stage. -/
def functionalFixedDict : PyDict :=
  [("nodes_per_layer", .num 10),
   ("num_hidden_layers", .num 4),
   ("dropout", .num 1),
   ("dropout_rate", .num (1/5)),
   ("batch_size", .num 16),
   ("num_epochs", .num 100)]

/-- Embedding of the staged optimisation workflow: the stages the
notebook runs, in cell order, each paired with the fixed hyperparameter
dictionary it is given.  `bestFunctional` and `bestShape` are the best
parameter dictionaries produced by the first two studies (loaded from the
two saved files).  The shape stage reuses `bestFunctional` with
`num_epochs` assigned 100; the dataset stage uses the union
`bestFunctional | bestShape`. -/
def surrogateWorkflow (bestFunctional bestShape : PyDict) :
    List (StageKind × PyDict) :=
  [(.functional, functionalFixedDict),
   (.shape, dictSet bestFunctional "num_epochs" (.num 100)),
   (.dataset, dictUnion bestFunctional bestShape)]

theorem foldl_max_bounds {α : Type} [LinearOrder α] (xs : List α) (a : α) :
    a ≤ xs.foldl max a ∧ ∀ x ∈ xs, x ≤ xs.foldl max a := by
  induction xs generalizing a with
  | nil => exact ⟨le_refl a, by simp⟩
  | cons y ys ih =>
      obtain ⟨h1, h2⟩ := ih (max a y)
      refine ⟨le_trans (le_max_left a y) h1, ?_⟩
      intro x hx
      rcases List.mem_cons.mp hx with rfl | hmem
      · exact le_trans (le_max_right a x) h1
      · exact h2 x hmem

theorem foldl_max_attained {α : Type} [LinearOrder α] (xs : List α) (a : α) :
    xs.foldl max a = a ∨ xs.foldl max a ∈ xs := by
  induction xs generalizing a with
  | nil => exact Or.inl rfl
  | cons y ys ih =>
      rcases ih (max a y) with h | h
      · rcases le_total a y with hay | hya
        · right
          rw [List.foldl_cons, h, max_eq_right hay]
          exact List.mem_cons_self _ _
        · left
          rw [List.foldl_cons, h, max_eq_left hya]
      · exact Or.inr (List.mem_cons_of_mem _ h)

theorem foldl_max_le_of_bound {α : Type} [LinearOrder α] (xs : List α)
    (a K : α) (ha : a ≤ K) (h : ∀ x ∈ xs, x ≤ K) : xs.foldl max a ≤ K := by
  induction xs generalizing a with
  | nil => exact ha
  | cons y ys ih =>
      exact ih (max a y)
        (max_le ha (h y (List.mem_cons_self _ _)))
        (fun x hx => h x (List.mem_cons_of_mem _ hx))

theorem foldl_min_bounds {α : Type} [LinearOrder α] (xs : List α) (a : α) :
    xs.foldl min a ≤ a ∧ ∀ x ∈ xs, xs.foldl min a ≤ x := by
  induction xs generalizing a with
  | nil => exact ⟨le_refl a, by simp⟩
  | cons y ys ih =>
      obtain ⟨h1, h2⟩ := ih (min a y)
      refine ⟨le_trans h1 (min_le_left a y), ?_⟩
      intro x hx
      rcases List.mem_cons.mp hx with rfl | hmem
      · exact le_trans h1 (min_le_right a x)
      · exact h2 x hmem

theorem foldl_min_attained {α : Type} [LinearOrder α] (xs : List α) (a : α) :
    xs.foldl min a = a ∨ xs.foldl min a ∈ xs := by
  induction xs generalizing a with
  | nil => exact Or.inl rfl
  | cons y ys ih =>
      rcases ih (min a y) with h | h
      · rcases le_total a y with hay | hya
        · left
          rw [List.foldl_cons, h, min_eq_left hay]
        · right
          rw [List.foldl_cons, h, min_eq_right hya]
          exact List.mem_cons_self _ _
      · exact Or.inr (List.mem_cons_of_mem _ h)

theorem le_maxList {l : List ℚ} {x : ℚ} (hx : x ∈ l) : x ≤ maxList l := by
  cases l with
  | nil => cases hx
  | cons y ys =>
      rcases List.mem_cons.mp hx with rfl | hmem
      · exact (foldl_max_bounds ys x).1
      · exact (foldl_max_bounds ys y).2 x hmem

theorem maxList_mem {l : List ℚ} (hl : l ≠ []) : maxList l ∈ l := by
  cases l with
  | nil => exact absurd rfl hl
  | cons y ys =>
      rcases foldl_max_attained ys y with h | h
      · rw [maxList, h]; exact List.mem_cons_self _ _
      · exact List.mem_cons_of_mem _ h

theorem npArgmax_lt_length {l : List ℚ} (hl : l ≠ []) :
    npArgmax l < l.length := by
  apply List.findIdx_lt_length_of_exists
  exact ⟨maxList l, maxList_mem hl, by simp⟩

theorem npArgmax_getElem {l : List ℚ} (h : npArgmax l < l.length) :
    l[npArgmax l] = maxList l := by
  simp only [npArgmax] at h ⊢
  have hp := @List.findIdx_getElem _ (fun x => decide (maxList l ≤ x)) l h
  have h1 : maxList l ≤ l[l.findIdx (fun x => decide (maxList l ≤ x))] := by
    simpa using hp
  have h2 : l[l.findIdx (fun x => decide (maxList l ≤ x))] ≤ maxList l :=
    le_maxList (List.getElem_mem _)
  exact le_antisymm h2 h1

theorem lt_maxList_of_lt_npArgmax {l : List ℚ} {j : Nat} (hj : j < l.length)
    (h : j < npArgmax l) : l[j] < maxList l := by
  simp only [npArgmax] at h
  have hp := List.not_of_lt_findIdx h
  have h1 : ¬ maxList l ≤ l[j] := by simpa using hp
  exact lt_of_not_le h1

theorem foldl_longest_eq_foldl_max (td : List (List ℚ)) (a : Nat) :
    td.foldl (fun longest h => if h.length > longest then h.length else longest) a
      = td.foldl (fun longest h => max longest h.length) a := by
  induction td generalizing a with
  | nil => rfl
  | cons y ys ih =>
      simp only [List.foldl_cons]
      rw [ih]
      congr 1
      split <;> omega

theorem longestWaveform_eq (td : List (List ℚ)) :
    longestWaveform td = (td.map List.length).foldl max 0 := by
  rw [longestWaveform, foldl_longest_eq_foldl_max, List.foldl_map]

theorem length_le_longestWaveform {td : List (List ℚ)} {h : List ℚ}
    (hmem : h ∈ td) : h.length ≤ longestWaveform td := by
  rw [longestWaveform_eq]
  exact (foldl_max_bounds (td.map List.length) 0).2 h.length
    (List.mem_map_of_mem List.length hmem)

theorem longestWaveform_le {td : List (List ℚ)} {K : Nat}
    (hb : ∀ h ∈ td, h.length ≤ K) : longestWaveform td ≤ K := by
  rw [longestWaveform_eq]
  apply foldl_max_le_of_bound _ _ _ (Nat.zero_le K)
  intro x hx
  obtain ⟨h, hh, rfl⟩ := List.mem_map.mp hx
  exact hb h hh

theorem longestWaveform_attained {td : List (List ℚ)} (hne : td ≠ []) :
    ∃ h ∈ td, h.length = longestWaveform td := by
  rcases foldl_max_attained (td.map List.length) 0 with h0 | hmem
  · cases td with
    | nil => exact absurd rfl hne
    | cons y ys =>
        refine ⟨y, List.mem_cons_self _ _, ?_⟩
        have h1 : y.length ≤ longestWaveform (y :: ys) :=
          length_le_longestWaveform (List.mem_cons_self _ _)
        have h2 : longestWaveform (y :: ys) = 0 := by
          rw [longestWaveform_eq]; exact h0
        omega
  · rw [longestWaveform_eq]
    obtain ⟨h, hh, hlen⟩ := List.mem_map.mp hmem
    exact ⟨h, hh, hlen⟩

theorem getD_map_of_lt {α β : Type} (f : α → β) (l : List α) (i : Nat)
    (d : α) (e : β) (hi : i < l.length) :
    (l.map f).getD i e = f (l.getD i d) := by
  rw [List.getD_eq_getElem _ _ (by simpa using hi), List.getD_eq_getElem _ _ hi]
  simp

theorem getD_range_of_lt (n i : Nat) (hi : i < n) :
    (List.range n).getD i 0 = i := by
  rw [List.getD_eq_getElem _ _ (by simpa using hi)]
  simp

theorem getD_mem_of_lt {α : Type} (l : List α) (i : Nat) (d : α)
    (hi : i < l.length) : l.getD i d ∈ l := by
  rw [List.getD_eq_getElem _ _ hi]
  exact List.getElem_mem _

/-- C3: for every non-empty list of 1-D waveforms and every `dt`,
`common_time_grid` returns a pair `(times, A)` where `A` has one column per
input waveform, the number of rows `L` equals the maximum input length,
column `i` equals waveform `i` padded with `L - len(waveform_i)` trailing
zeros, and `times = [0, dt, ..., (L-1)*dt]`. -/
theorem common_time_grid_fst (ts : List (List ℚ)) (dt : ℚ) :
    (common_time_grid ts dt).1
      = (List.range (longestWaveform ts)).map (fun i : Nat => (i : ℚ) * dt) := rfl

theorem common_time_grid_snd (ts : List (List ℚ)) (dt : ℚ) :
    (common_time_grid ts dt).2
      = ts.map (fun h => h ++ List.replicate (longestWaveform ts - h.length) 0) :=
  rfl

theorem common_time_grid_correct (ts : List (List ℚ)) (dt : ℚ)
    (hne : ts ≠ []) : CommonTimeGridClaim ts dt := by
  have hcol : ∀ i, i < ts.length →
      (common_time_grid ts dt).2.getD i []
        = ts.getD i [] ++ List.replicate (longestWaveform ts - (ts.getD i []).length) 0 := by
    intro i hi
    rw [common_time_grid_snd]
    exact getD_map_of_lt
      (fun h => h ++ List.replicate (longestWaveform ts - h.length) 0)
      ts i [] [] hi
  refine ⟨longestWaveform ts, fun h hh => length_le_longestWaveform hh,
    longestWaveform_attained hne, ?_, hcol, ?_, ?_, ?_⟩
  · rw [common_time_grid_snd, List.length_map]
  · intro i hi
    rw [hcol i hi, List.length_append, List.length_replicate]
    have hle : (ts.getD i []).length ≤ longestWaveform ts :=
      length_le_longestWaveform (getD_mem_of_lt ts i [] hi)
    omega
  · rw [common_time_grid_fst, List.length_map, List.length_range]
  · intro i hi
    rw [common_time_grid_fst,
      getD_map_of_lt (fun j : Nat => (j : ℚ) * dt) (List.range (longestWaveform ts))
        i 0 0 (by simpa using hi),
      getD_range_of_lt _ _ hi]

/-- Witness for C3 at a concrete input. -/
theorem common_time_grid_correct_witness :
    ([[1], [2, 3]] : List (List ℚ)) ≠ [] ∧ CommonTimeGridClaim [[1], [2, 3]] (1/2) :=
  ⟨by decide, common_time_grid_correct [[1], [2, 3]] (1/2) (by decide)⟩

/-- C9: the result of `align_peaks` does not depend on its `times`
argument: for any two values of that argument and a fixed training set the
function returns the same array, and likewise `get_peaks` ignores its
parameter `t` (the bodies read the notebook globals instead). -/
theorem align_peaks_ignores_times (g : Globals) (t1 t2 : List ℚ)
    (ts : List (List ℚ)) :
    get_peaks g t1 ts = get_peaks g t2 ts ∧
    align_peaks g t1 ts = align_peaks g t2 ts :=
  ⟨rfl, rfl⟩

theorem pyMin_le {l : List Nat} {x : Nat} (hx : x ∈ l) : pyMin l ≤ x := by
  cases l with
  | nil => cases hx
  | cons y ys =>
      rcases List.mem_cons.mp hx with rfl | hmem
      · exact (foldl_min_bounds ys x).1
      · exact (foldl_min_bounds ys y).2 x hmem

theorem pyMin_mem {l : List Nat} (hl : l ≠ []) : pyMin l ∈ l := by
  cases l with
  | nil => exact absurd rfl hl
  | cons y ys =>
      rcases foldl_min_attained ys y with h | h
      · rw [pyMin, h]; exact List.mem_cons_self _ _
      · exact List.mem_cons_of_mem _ h

theorem get_peak_fst (t : List ℚ) (h : List ℚ) :
    (get_peak t h).1 = peakIndex h := rfl

theorem getD_map_range {β : Type} (f : Nat → β) (n i : Nat) (d : β)
    (hi : i < n) : ((List.range n).map f).getD i d = f i := by
  rw [getD_map_of_lt f (List.range n) i 0 d (by simpa using hi),
    getD_range_of_lt n i hi]

theorem getD_drop (l : List ℚ) (d : ℚ) (o m : Nat) :
    (l.drop o).getD m d = l.getD (o + m) d := by
  rw [List.getD_eq_getElem?_getD, List.getD_eq_getElem?_getD,
    List.getElem?_drop]

theorem peakIndex_lt {h : List ℚ} (hne : h ≠ []) :
    peakIndex h < h.length := by
  have h1 : h.map (fun x => |x|) ≠ [] := by
    simpa using hne
  have := npArgmax_lt_length h1
  simpa [peakIndex] using this

theorem abs_getD_peakIndex {h : List ℚ} (hne : h ≠ []) :
    ∀ x ∈ h, |x| ≤ |h.getD (peakIndex h) 0| := by
  intro x hx
  have hlt : peakIndex h < h.length := peakIndex_lt hne
  have hlt' : npArgmax (h.map fun x => |x|) < (h.map fun x => |x|).length := by
    simpa [peakIndex] using hlt
  have hmax : (h.map fun x => |x|)[npArgmax (h.map fun x => |x|)]
      = maxList (h.map fun x => |x|) := npArgmax_getElem hlt'
  have hval : (h.map fun x => |x|)[npArgmax (h.map fun x => |x|)]
      = |h.get ⟨peakIndex h, hlt⟩| := by
    simp [peakIndex]
  have hxle : |x| ≤ maxList (h.map fun x => |x|) :=
    le_maxList (List.mem_map_of_mem _ hx)
  rw [List.getD_eq_getElem _ _ hlt]
  rw [hval] at hmax
  rw [show h[peakIndex h] = h.get ⟨peakIndex h, hlt⟩ from rfl, hmax]
  exact hxle

theorem get_peaks_eq (g : Globals) (t : List ℚ) (ts : List (List ℚ)) :
    get_peaks g t ts = (List.range g.num_train_samples).map
      (fun i => peakIndex (ts.getD i [])) := rfl

theorem align_peaks_eq (g : Globals) (t : List ℚ) (ts : List (List ℚ)) :
    align_peaks g t ts = (common_time_grid
      ((List.range g.num_train_samples).map
        (fun i => (ts.getD i []).drop
          ((get_peaks g t ts).getD i 0 - pyMin (get_peaks g t ts)))) (1/10)).2 :=
  rfl

/-- C2: for every non-empty matrix of common-length columns (the output of
`common_time_grid`) with the global `num_train_samples` equal to the
number of columns, `align_peaks` shifts column `i` left by
`peakIndex_i - min_peakIndex` and pads with trailing zeros, so that every
column attains the maximum of its absolute values at the common row index
`min_peakIndex`. -/
theorem align_peaks_correct (g : Globals) (t : List ℚ) (ts : List (List ℚ))
    (L : Nat) (hne : ts ≠ []) (hL : 0 < L)
    (hlen : ∀ h ∈ ts, h.length = L)
    (hg : g.num_train_samples = ts.length) :
    AlignPeaksClaim g t ts L := by
  have hpeaks : get_peaks g t ts = (List.range ts.length).map
      (fun i => peakIndex (ts.getD i [])) := by
    rw [get_peaks_eq, hg]
  have hn : 0 < ts.length := List.length_pos.mpr hne
  have hmle : ∀ i, i < ts.length →
      pyMin (get_peaks g t ts) ≤ peakIndex (ts.getD i []) := by
    intro i hi
    apply pyMin_le
    rw [hpeaks]
    exact List.mem_map_of_mem _ (List.mem_range.mpr hi)
  have hmmem : ∃ i, i < ts.length ∧
      peakIndex (ts.getD i []) = pyMin (get_peaks g t ts) := by
    have hpne : get_peaks g t ts ≠ [] := by
      apply List.ne_nil_of_length_pos
      rw [hpeaks, List.length_map, List.length_range]
      exact hn
    have := pyMin_mem hpne
    rw [hpeaks] at this
    obtain ⟨i, hi, heq⟩ := List.mem_map.mp this
    rw [hpeaks]
    exact ⟨i, List.mem_range.mp hi, heq⟩
  have hcollen : ∀ i, i < ts.length → (ts.getD i []).length = L :=
    fun i hi => hlen _ (getD_mem_of_lt ts i [] hi)
  have hcolne : ∀ i, i < ts.length → ts.getD i [] ≠ [] := by
    intro i hi
    apply List.ne_nil_of_length_pos
    rw [hcollen i hi]
    exact hL
  have hPlt : ∀ i, i < ts.length → peakIndex (ts.getD i []) < L := by
    intro i hi
    have := peakIndex_lt (hcolne i hi)
    rwa [hcollen i hi] at this
  have hA : (List.range g.num_train_samples).map
      (fun i => (ts.getD i []).drop
        ((get_peaks g t ts).getD i 0 - pyMin (get_peaks g t ts)))
      = (List.range ts.length).map
        (fun i => (ts.getD i []).drop
          (peakIndex (ts.getD i []) - pyMin (get_peaks g t ts))) := by
    rw [hg]
    apply List.map_eq_map_iff.mpr
    intro i hi
    rw [hpeaks, getD_map_range _ _ _ _ (List.mem_range.mp hi)]
  have haligned : align_peaks g t ts = (common_time_grid
      ((List.range ts.length).map
        (fun i => (ts.getD i []).drop
          (peakIndex (ts.getD i []) - pyMin (get_peaks g t ts)))) (1/10)).2 := by
    rw [align_peaks_eq, hA]
  have hlongest : longestWaveform ((List.range ts.length).map
      (fun i => (ts.getD i []).drop
        (peakIndex (ts.getD i []) - pyMin (get_peaks g t ts)))) = L := by
    apply le_antisymm
    · apply longestWaveform_le
      intro h hh
      obtain ⟨i, hi, rfl⟩ := List.mem_map.mp hh
      rw [List.length_drop, hcollen i (List.mem_range.mp hi)]
      omega
    · obtain ⟨i0, hi0, hP0⟩ := hmmem
      have hmem0 : (ts.getD i0 []).drop
          (peakIndex (ts.getD i0 []) - pyMin (get_peaks g t ts))
          ∈ (List.range ts.length).map
            (fun i => (ts.getD i []).drop
              (peakIndex (ts.getD i []) - pyMin (get_peaks g t ts))) :=
        List.mem_map_of_mem _ (List.mem_range.mpr hi0)
      have hlen0 : ((ts.getD i0 []).drop
          (peakIndex (ts.getD i0 []) - pyMin (get_peaks g t ts))).length = L := by
        rw [List.length_drop, hcollen i0 hi0, hP0]
        omega
      rw [← hlen0]
      exact length_le_longestWaveform hmem0
  have hreslen : (align_peaks g t ts).length = ts.length := by
    rw [haligned, common_time_grid_snd, List.length_map, List.length_map,
      List.length_range]
  have hrescol : ∀ i, i < ts.length → (align_peaks g t ts).getD i []
      = (ts.getD i []).drop
          (peakIndex (ts.getD i []) - pyMin (get_peaks g t ts))
        ++ List.replicate
            (peakIndex (ts.getD i []) - pyMin (get_peaks g t ts)) 0 := by
    intro i hi
    rw [haligned, common_time_grid_snd,
      getD_map_of_lt _ _ i [] []
        (by rw [List.length_map, List.length_range]; exact hi),
      getD_map_range _ _ _ _ hi, hlongest, List.length_drop, hcollen i hi]
    congr 2
    have h1 := hmle i hi
    have h2 := hPlt i hi
    omega
  have hrescollen : ∀ i, i < ts.length →
      ((align_peaks g t ts).getD i []).length = L := by
    intro i hi
    rw [hrescol i hi, List.length_append, List.length_drop,
      List.length_replicate, hcollen i hi]
    have h1 := hmle i hi
    have h2 := hPlt i hi
    omega
  have hmL : pyMin (get_peaks g t ts) < L := by
    obtain ⟨i0, hi0, hP0⟩ := hmmem
    rw [← hP0]
    exact hPlt i0 hi0
  refine ⟨pyMin (get_peaks g t ts), hmle, hmmem, hreslen, hrescol,
    hrescollen, hmL, ?_⟩
  intro i hi x hx
  have h1 := hmle i hi
  have h2 := hPlt i hi
  rw [hrescol i hi] at hx ⊢
  have hdroplen : ((ts.getD i []).drop
      (peakIndex (ts.getD i []) - pyMin (get_peaks g t ts))).length
      = L - (peakIndex (ts.getD i []) - pyMin (get_peaks g t ts)) := by
    rw [List.length_drop, hcollen i hi]
  rw [List.getD_append _ _ _ _ (by rw [hdroplen]; omega), getD_drop]
  have hidx : peakIndex (ts.getD i []) - pyMin (get_peaks g t ts)
      + pyMin (get_peaks g t ts) = peakIndex (ts.getD i []) := by omega
  rw [hidx]
  rcases List.mem_append.mp hx with hxd | hxr
  · exact abs_getD_peakIndex (hcolne i hi) x (List.mem_of_mem_drop hxd)
  · rw [List.eq_of_mem_replicate hxr]
    simp [abs_nonneg]

/-- Witness for C2 at a concrete input: two columns of length 3, peaks at
indices 1 and 2. -/
theorem align_peaks_correct_witness :
    (([[0, 2, 1], [0, 1, 3]] : List (List ℚ)) ≠ [] ∧ 0 < 3 ∧
      (∀ h ∈ ([[0, 2, 1], [0, 1, 3]] : List (List ℚ)), h.length = 3) ∧
      (Globals.mk [0] 2).num_train_samples
        = ([[0, 2, 1], [0, 1, 3]] : List (List ℚ)).length) ∧
    AlignPeaksClaim (Globals.mk [0] 2) [] [[0, 2, 1], [0, 1, 3]] 3 :=
  ⟨⟨by decide, by decide, by decide, by decide⟩,
    align_peaks_correct (Globals.mk [0] 2) [] [[0, 2, 1], [0, 1, 3]] 3
      (by decide) (by decide) (by decide) (by decide)⟩

/-- C4: with `num_iterations = 10` and the 240-sample training partition
(60 percent of the 401 generated samples), `append_sizes` sums to exactly
240, so the notebook assertion `np.sum(append_sizes) == 240` holds; and in
general the listed iteration sizes `k * (n // k)` never exceed `n`. -/
theorem append_sizes_sum_correct :
    train_test_split_train_count 401 = 240 ∧
    (append_sizes (train_test_split_train_count 401) 10).sum = 240 ∧
    (∀ n k : Nat, 1 ≤ k → (append_sizes n k).sum ≤ n) := by
  refine ⟨by decide, by decide, ?_⟩
  intro n k _
  rw [append_sizes, List.sum_replicate, smul_eq_mul, Nat.mul_comm]
  exact Nat.div_mul_le_self n k

/-- Witness for C4 at a concrete input not dividing evenly. -/
theorem append_sizes_sum_correct_witness :
    1 ≤ 3 ∧ (append_sizes 7 3).sum ≤ 7 :=
  ⟨by decide, append_sizes_sum_correct.2.2 7 3 (by decide)⟩

theorem to_categorical_length (numClasses y : Nat) :
    (to_categorical numClasses y).length = numClasses := by
  rw [to_categorical, List.length_map, List.length_range]

theorem to_categorical_getElem (numClasses y j : Nat) (hj : j < numClasses) :
    (to_categorical numClasses y).get
        ⟨j, by rw [to_categorical_length]; exact hj⟩
      = if j = y then 1 else 0 := by
  simp [to_categorical]

theorem maxList_to_categorical {numClasses y : Nat} (hy : y < numClasses) :
    maxList (to_categorical numClasses y) = 1 := by
  have h1 : (1 : ℚ) ∈ to_categorical numClasses y := by
    rw [to_categorical]
    refine List.mem_map.mpr ⟨y, List.mem_range.mpr hy, by simp⟩
  have hub : ∀ x ∈ to_categorical numClasses y, x ≤ 1 := by
    intro x hx
    rw [to_categorical] at hx
    obtain ⟨j, _, rfl⟩ := List.mem_map.mp hx
    split <;> norm_num
  have hne : to_categorical numClasses y ≠ [] := by
    apply List.ne_nil_of_length_pos
    rw [to_categorical_length]
    omega
  exact le_antisymm (hub _ (maxList_mem hne)) (le_maxList h1)

/-- Round trip on a single label: `np.argmax` of the one-hot row of `y`
recovers `y`, provided `y < num_classes`. -/
theorem npArgmax_to_categorical {numClasses y : Nat} (hy : y < numClasses) :
    npArgmax (to_categorical numClasses y) = y := by
  have hlen := to_categorical_length numClasses y
  rw [npArgmax, maxList_to_categorical hy]
  have hylt : y < (to_categorical numClasses y).length := by rw [hlen]; exact hy
  rw [List.findIdx_eq hylt]
  constructor
  · have := to_categorical_getElem numClasses y y hy
    simp only [List.get_eq_getElem] at this
    rw [this]
    simp
  · intro j hj
    have hjlt : j < numClasses := lt_trans hj hy
    have := to_categorical_getElem numClasses y j hjlt
    simp only [List.get_eq_getElem] at this
    rw [this]
    have hne : j ≠ y := Nat.ne_of_lt hj
    simp [hne]

/-- C5: for every vector of integer class labels taking values below the
number of distinct labels, one-hot encoding with
`to_categorical(y, num_classes)` followed by `np.argmax` decoding along
axis 1 returns the labels exactly. -/
theorem one_hot_argmax_round_trip (ys : List Nat)
    (hy : ∀ y ∈ ys, y < numDistinct ys) :
    ys.map (fun y => npArgmax (to_categorical (numDistinct ys) y)) = ys := by
  conv_rhs => rw [← List.map_id ys]
  apply List.map_eq_map_iff.mpr
  intro y hmem
  exact npArgmax_to_categorical (hy y hmem)

/-- Witness for C5 at a concrete label vector. -/
theorem one_hot_argmax_round_trip_witness :
    (∀ y ∈ [0, 2, 1, 2], y < numDistinct [0, 2, 1, 2]) ∧
    [0, 2, 1, 2].map
        (fun y => npArgmax (to_categorical (numDistinct [0, 2, 1, 2]) y))
      = [0, 2, 1, 2] :=
  ⟨by decide, one_hot_argmax_round_trip [0, 2, 1, 2] (by decide)⟩

/-- C6: for every data row with at least two entries, the features are
exactly all entries except the last and the target is exactly the last
entry (so the label column is not among the features), and the model ends
in a softmax layer with exactly one unit per distinct class value. -/
theorem classifier_split_and_output_layer (row : List ℚ) (labels : List ℚ)
    (hrow : 2 ≤ row.length) :
    featureRow row ++ [targetOfRow row] = row ∧
    (featureRow row).length = row.length - 1 ∧
    (classifierModel (numDistinct labels)).getLast?
      = some ⟨numDistinct labels, Activation.softmax⟩ := by
  have hne : row ≠ [] := by
    apply List.ne_nil_of_length_pos
    omega
  refine ⟨?_, ?_, rfl⟩
  · have h1 : targetOfRow row = row.getLast hne := by
      rw [targetOfRow, List.getLast?_eq_getLast _ hne]
      rfl
    rw [featureRow, h1]
    exact List.dropLast_append_getLast hne
  · rw [featureRow, List.length_dropLast]

/-- Witness for C6 at a concrete row and label vector. -/
theorem classifier_split_and_output_layer_witness :
    2 ≤ ([5, 7, 1] : List ℚ).length ∧
    (featureRow [5, 7, 1] ++ [targetOfRow [5, 7, 1]] = [5, 7, 1] ∧
      (featureRow ([5, 7, 1] : List ℚ)).length = ([5, 7, 1] : List ℚ).length - 1 ∧
      (classifierModel (numDistinct ([0, 1, 1] : List ℚ))).getLast?
        = some ⟨numDistinct ([0, 1, 1] : List ℚ), Activation.softmax⟩) :=
  ⟨by norm_num, classifier_split_and_output_layer [5, 7, 1] [0, 1, 1] (by norm_num)⟩

theorem dictLookup_append (a b : PyDict) (k : String) :
    dictLookup (a ++ b) k
      = match dictLookup a k with
        | some v => some v
        | none => dictLookup b k := by
  induction a with
  | nil => rfl
  | cons p rest ih =>
      by_cases h : p.1 = k <;> simp [dictLookup, h, ih]

theorem dictLookup_map_override (d1 d2 : PyDict) (k : String) :
    dictLookup (d1.map (fun p =>
        match dictLookup d2 p.1 with
        | some v => (p.1, v)
        | none => p)) k
      = match dictLookup d1 k, dictLookup d2 k with
        | none, _ => none
        | some _, some w => some w
        | some v, none => some v := by
  induction d1 with
  | nil => rfl
  | cons p rest ih =>
      by_cases h : p.1 = k
      · subst h
        cases hw : dictLookup d2 p.1 <;>
          simp [dictLookup, hw]
      · cases hw : dictLookup d2 p.1 <;>
          simp [dictLookup, h, hw, ih]

theorem dictLookup_filter_not_in (d1 d2 : PyDict) (k : String) :
    dictLookup (d2.filter (fun p => (dictLookup d1 p.1).isNone)) k
      = if (dictLookup d1 k).isSome then none else dictLookup d2 k := by
  induction d2 with
  | nil => simp [dictLookup]
  | cons q rest ih =>
      by_cases hk : q.1 = k
      · subst hk
        cases h1 : dictLookup d1 q.1 with
        | none => simp [List.filter_cons, dictLookup, h1]
        | some v => simp [List.filter_cons, dictLookup, h1, ih]
      · cases h1q : dictLookup d1 q.1 with
        | none => simp [List.filter_cons, dictLookup, h1q, hk, ih]
        | some v => simp [List.filter_cons, dictLookup, h1q, hk, ih]

/-- Keys present in the right operand of a Python dictionary union take
their value from the right operand. -/
theorem dictUnion_right_bias (d1 d2 : PyDict) (k : String)
    (hk : (dictLookup d2 k).isSome) :
    dictLookup (dictUnion d1 d2) k = dictLookup d2 k := by
  rw [dictUnion, dictLookup_append, dictLookup_map_override,
    dictLookup_filter_not_in]
  cases h1 : dictLookup d1 k with
  | none => simp [h1]
  | some v =>
      cases h2 : dictLookup d2 k with
      | none => rw [h2] at hk; simp at hk
      | some w => simp

/-- Item assignment makes the assigned key map to the assigned value. -/
theorem dictSet_lookup (d : PyDict) (k : String) (v : PyVal) :
    dictLookup (dictSet d k v) k = some v := by
  rw [dictSet]
  split
  · rename_i hs
    induction d with
    | nil => simp [dictLookup] at hs
    | cons p rest ih =>
        by_cases h : p.1 = k
        · simp [dictLookup, h]
        · simp only [dictLookup, h, if_false] at hs
          simp [dictLookup, h, ih hs]
  · rw [dictLookup_append]
    rename_i hs
    cases h1 : dictLookup d k with
    | none => simp [dictLookup]
    | some v0 => rw [h1] at hs; simp at hs

/-- C1: the workflow runs functional, then shape, then dataset
optimisation; the shape stage fixes `num_epochs` back to 100 in its fixed
dictionary; and in the merged dictionary `best_functional | best_shape`
every key present in both operands takes its value from `best_shape`. -/
theorem staged_workflow_correct (bestFunctional bestShape : PyDict) :
    (surrogateWorkflow bestFunctional bestShape).map Prod.fst
      = [StageKind.functional, StageKind.shape, StageKind.dataset] ∧
    dictLookup ((surrogateWorkflow bestFunctional bestShape).getD 1
        (.functional, [])).2 "num_epochs" = some (.num 100) ∧
    ∀ k : String, (dictLookup bestFunctional k).isSome →
      (dictLookup bestShape k).isSome →
      dictLookup ((surrogateWorkflow bestFunctional bestShape).getD 2
          (.functional, [])).2 k = dictLookup bestShape k := by
  refine ⟨rfl, dictSet_lookup _ _ _, ?_⟩
  intro k _ hk2
  exact dictUnion_right_bias _ _ _ hk2

/-- Witness for C1 at concrete dictionaries sharing the key `a`. -/
theorem staged_workflow_correct_witness :
    ((dictLookup [("a", PyVal.num 1), ("num_epochs", PyVal.num 50)] "a").isSome ∧
      (dictLookup [("a", PyVal.num 2)] "a").isSome) ∧
    dictLookup ((surrogateWorkflow
        [("a", PyVal.num 1), ("num_epochs", PyVal.num 50)]
        [("a", PyVal.num 2)]).getD 2 (StageKind.functional, [])).2 "a"
      = dictLookup [("a", PyVal.num 2)] "a" :=
  ⟨⟨by rfl, by rfl⟩,
    (staged_workflow_correct
        [("a", PyVal.num 1), ("num_epochs", PyVal.num 50)]
        [("a", PyVal.num 2)]).2.2 "a" (by rfl) (by rfl)⟩

end ICERMWorkshop
